import Mathlib

/-!
Verification of the nxt threat-model core against its specification.

The Python sources are shallowly embedded:
- `src/nxt/schema/types.py` / `model.py`: entity types, graph build, queries
- `src/nxt/model/views.py`: outstanding-attack lineage collection
- `src/nxt/model/compat.py` (and `legacy/read_database.py`): relational
  export records and auto-identifier generation

Python object references are embedded as nested inductive values (the
authoring API builds acyclic object graphs; equality is by `id`, which the
embedding applies wherever the source compares or keys entities).  Recursions
that are not structural in Lean (they follow `achieves`/`refines` references
computed by lookup) take an explicit fuel argument; fuel exhaustion models
non-termination of the corresponding Python recursion.
-/

namespace Nxt

/-! ## Stable sorting and the natural ordering of `natsort.natsorted`

`natsorted(xs, key=...)` splits each key string into alternating non-digit
and digit runs, compares digit runs numerically, and sorts stably.  The key
tuples produced by natsort always begin with a (possibly empty) string chunk,
so positionwise comparisons are between chunks of equal shape. -/

/-- One chunk of a natural-sort key: a run of non-digit characters or the
numeric value of a run of digits. -/
inductive NatChunk where
  | str (s : String)
  | num (n : Nat)
deriving DecidableEq

/-- Split a character list into alternating non-digit / digit chunks.
The first argument is fuel; `s.length + 1` always suffices because every
step consumes at least one character. -/
def natChunksGo : Nat → List Char → List NatChunk
  | 0, _ => []
  | _, [] => []
  | n + 1, c :: cs =>
    if c.isDigit then
      let ds := (c :: cs).takeWhile Char.isDigit
      let rest := (c :: cs).dropWhile Char.isDigit
      NatChunk.num (ds.foldl (fun a d => a * 10 + (d.toNat - '0'.toNat)) 0) :: natChunksGo n rest
    else
      let ss := (c :: cs).takeWhile (fun x => !x.isDigit)
      let rest := (c :: cs).dropWhile (fun x => !x.isDigit)
      NatChunk.str (String.mk ss) :: natChunksGo n rest

/-- The natural-sort key of a string, normalised (as natsort does) so that
every key starts with a string chunk. -/
def natKey (s : String) : List NatChunk :=
  let l := natChunksGo (s.length + 1) s.toList
  match l with
  | NatChunk.num _ :: _ => NatChunk.str "" :: l
  | _ => l

/-- Compare two chunks; mismatched shapes (which natsort orders numbers
first) cannot arise between two normalised keys at the same position. -/
def natChunkCmp : NatChunk → NatChunk → Ordering
  | NatChunk.str a, NatChunk.str b => compare a b
  | NatChunk.num a, NatChunk.num b => compare a b
  | NatChunk.num _, NatChunk.str _ => Ordering.lt
  | NatChunk.str _, NatChunk.num _ => Ordering.gt

/-- Lexicographic comparison of natural-sort keys. -/
def natKeyCmp : List NatChunk → List NatChunk → Ordering
  | [], [] => Ordering.eq
  | [], _ :: _ => Ordering.lt
  | _ :: _, [] => Ordering.gt
  | a :: as, b :: bs =>
    match natChunkCmp a b with
    | Ordering.eq => natKeyCmp as bs
    | o => o

/-- Boolean "less or equal" on strings under the natural ordering. -/
def natLeBy (f : α → String) (x y : α) : Bool :=
  natKeyCmp (natKey (f x)) (natKey (f y)) ≠ Ordering.gt

/-- Insert `x` into `l` before the first element `y` with `le x y`;
used by `stableSort`. -/
def insertLe (le : α → α → Bool) (x : α) : List α → List α
  | [] => [x]
  | y :: ys => if le x y then x :: y :: ys else y :: insertLe le x ys

/-- Stable insertion sort: elements with equal keys keep their input order,
matching Python's stable `sorted`. -/
def stableSort (le : α → α → Bool) : List α → List α
  | [] => []
  | x :: xs => insertLe le x (stableSort le xs)

/-- Embedding of `natsorted(l, key=lambda v: f(v))`. -/
def natsortBy (f : α → String) (l : List α) : List α :=
  stableSort (natLeBy f) l

/-! ## Entity types (`src/nxt/schema/types.py`)

Pydantic models whose optional reference fields hold already-constructed
entities.  Python equality is by `id`; the embedding compares ids wherever
the source does. -/

/-- `ContextKind` enumeration. -/
inductive ContextKind where
  | subsystem | network | actor | primitive | data
deriving DecidableEq

/-- The string value of a `ContextKind` member. -/
def ContextKind.value : ContextKind → String
  | subsystem => "Subsystem"
  | network => "Network"
  | actor => "Actor"
  | primitive => "Primitive"
  | data => "Data"

/-- `Scope` enumeration (`core`, `partially-core`, `non-core`).  The middle
member is named `pcore` here; its string value is unchanged. -/
inductive Scope where
  | core | pcore | noncore
deriving DecidableEq

/-- The string value of a `Scope` member. -/
def Scope.value : Scope → String
  | core => "core"
  | pcore => "partially-core"
  | noncore => "non-core"

/-- `Property`: id, description, optional parent via `refines`. -/
inductive Property where
  | mk (id : String) (description : String) (refines : Option Property)

def Property.id : Property → String
  | .mk i _ _ => i

def Property.description : Property → String
  | .mk _ d _ => d

def Property.refines : Property → Option Property
  | .mk _ _ r => r

/-- Structural (full-value) equality test on properties.  Note that the
source compares properties by `id` alone; this full test is used only to
state the well-formedness hypothesis that references resolve inside the
property collection. -/
def Property.beq : Property → Property → Bool
  | .mk i d r, .mk i' d' r' =>
    i == i' && d == d' &&
      match r, r' with
      | none, none => true
      | some p, some p' => Property.beq p p'
      | _, _ => false

/-- `Context`. -/
structure Context where
  id : String
  name : String
  kind : ContextKind
  description : Option String
deriving DecidableEq

/-- `Mitigation`. -/
structure Mitigation where
  id : String
  name : String
  description : String
  scope : Scope
deriving DecidableEq

/-- `MitigationApplication`: a mitigation applied with a rationale. -/
structure MApp where
  mitigation : Mitigation
  rationale : String
deriving DecidableEq

/-- `AttackPattern`: abstract attack template with its own mitigations and
an optional parent pattern via `refines`. -/
inductive AttackPattern where
  | mk (id : String) (name : String) (description : String)
       (refines : Option AttackPattern) (mitigations : List MApp)

def AttackPattern.id : AttackPattern → String
  | .mk i _ _ _ _ => i

def AttackPattern.name : AttackPattern → String
  | .mk _ n _ _ _ => n

def AttackPattern.description : AttackPattern → String
  | .mk _ _ d _ _ => d

def AttackPattern.refines : AttackPattern → Option AttackPattern
  | .mk _ _ _ r _ => r

def AttackPattern.mitigations : AttackPattern → List MApp
  | .mk _ _ _ _ ms => ms

/-- `Attack`: concrete attack with its relationship fields. -/
inductive Attack where
  | mk (id : String) (name : String) (description : String)
       (variant_of : Option AttackPattern) (achieves : List Attack)
       (requires : List Attack) (occurs_in : List Context)
       (targets : List Property) (mitigations : List MApp)

def Attack.id : Attack → String
  | .mk i _ _ _ _ _ _ _ _ => i

def Attack.name : Attack → String
  | .mk _ n _ _ _ _ _ _ _ => n

def Attack.description : Attack → String
  | .mk _ _ d _ _ _ _ _ _ => d

def Attack.variant_of : Attack → Option AttackPattern
  | .mk _ _ _ v _ _ _ _ _ => v

def Attack.achieves : Attack → List Attack
  | .mk _ _ _ _ a _ _ _ _ => a

def Attack.requiresList : Attack → List Attack
  | .mk _ _ _ _ _ r _ _ _ => r

def Attack.occurs_in : Attack → List Context
  | .mk _ _ _ _ _ _ o _ _ => o

def Attack.targets : Attack → List Property
  | .mk _ _ _ _ _ _ _ t _ => t

def Attack.mitigations : Attack → List MApp
  | .mk _ _ _ _ _ _ _ _ m => m

/-- The reserved `OUT_OF_SCOPE` sentinel mitigation from `types.py`. -/
def OUT_OF_SCOPE : Mitigation :=
  { id := "OOS", name := "Out of scope"
    description := "This attack cannot be mitigated within the system scope."
    scope := Scope.noncore }

/-- `ThreatModel`: container of the five entity collections. -/
structure ThreatModel where
  name : String
  description : String
  properties : List Property
  contexts : List Context
  mitigations : List Mitigation
  patterns : List AttackPattern
  attacks : List Attack

/-! ## Graph builder (`ThreatModel.build`, `src/nxt/schema/model.py`)

The networkx `DiGraph` is embedded as explicit node and edge lists.
`add_node` records the entity's kind in the `node_type` attribute (the
`node` attribute holding the entity itself is recoverable from the model by
id and is not duplicated in the graph value).  Crucially, networkx's
`add_edge` silently creates missing endpoints as nodes with an empty
attribute dict — embedded as a node whose tag is `none`. -/

/-- A directed edge with its `edge_type` and optional `rationale` data. -/
structure GEdge where
  src : String
  dst : String
  edgeType : String
  rationale : Option String
deriving DecidableEq

/-- The embedded networkx `DiGraph`: nodes carry an optional `node_type`
tag (`none` for nodes auto-created by `add_edge`). -/
structure Graph where
  nodes : List (String × Option String)
  edges : List GEdge
deriving DecidableEq

/-- `G.add_node(id, node=..., node_type=tag)`: update the attributes of an
existing node or append a new one. -/
def Graph.addNode (g : Graph) (id : String) (tag : String) : Graph :=
  if g.nodes.any (fun n => n.1 == id) then
    { g with nodes := g.nodes.map (fun n => if n.1 == id then (n.1, some tag) else n) }
  else
    { g with nodes := g.nodes ++ [(id, some tag)] }

/-- Ensure a node exists (no attributes), as `add_edge` does for missing
endpoints. -/
def Graph.ensureNode (g : Graph) (id : String) : Graph :=
  if g.nodes.any (fun n => n.1 == id) then g
  else { g with nodes := g.nodes ++ [(id, none)] }

/-- `G.add_edge(u, v, edge_type=..., rationale=...)`: auto-create missing
endpoints, then add the edge or update the data of an existing `(u, v)`
edge (a `DiGraph` holds at most one edge per ordered pair). -/
def Graph.addEdge (g : Graph) (u v : String) (ty : String) (rat : Option String) : Graph :=
  let g := (g.ensureNode u).ensureNode v
  if g.edges.any (fun e => e.src == u && e.dst == v) then
    { g with edges := g.edges.map (fun e =>
        if e.src == u && e.dst == v then { e with edgeType := ty, rationale := rat } else e) }
  else
    { g with edges := g.edges ++ [⟨u, v, ty, rat⟩] }

/-- The `refines` edge of one property (edge pass of `build`). -/
def propertyRefinesStep (g : Graph) (p : Property) : Graph :=
  match p.refines with
  | some q => g.addEdge p.id q.id "refines" none
  | none => g

/-- The `refines` and `mitigates` edges of one pattern. -/
def patternEdgesStep (g : Graph) (p : AttackPattern) : Graph :=
  let g := match p.refines with
    | some q => g.addEdge p.id q.id "refines" none
    | none => g
  p.mitigations.foldl (fun g ma =>
    g.addEdge ma.mitigation.id p.id "mitigates" (some ma.rationale)) g

/-- The `variant_of`, `achieves`, `requires`, `occurs_in`, `targets` and
`mitigates` edges of one attack. -/
def attackEdgesStep (g : Graph) (a : Attack) : Graph :=
  let g := match a.variant_of with
    | some p => g.addEdge a.id p.id "variant_of" none
    | none => g
  let g := a.achieves.foldl (fun g parent => g.addEdge a.id parent.id "achieves" none) g
  let g := a.requiresList.foldl (fun g pre => g.addEdge a.id pre.id "requires" none) g
  let g := a.occurs_in.foldl (fun g c => g.addEdge a.id c.id "occurs_in" none) g
  let g := a.targets.foldl (fun g p => g.addEdge a.id p.id "targets" none) g
  a.mitigations.foldl (fun g ma =>
    g.addEdge ma.mitigation.id a.id "mitigates" (some ma.rationale)) g

/-- `ThreatModel.build`: add all entity nodes, then all relationship edges,
in source order.  The build is total — no reference validation occurs. -/
def ThreatModel.build (m : ThreatModel) : Graph :=
  let g : Graph := ⟨[], []⟩
  let g := m.properties.foldl (fun g p => g.addNode p.id "property") g
  let g := m.contexts.foldl (fun g c => g.addNode c.id "context") g
  let g := m.mitigations.foldl (fun g mit => g.addNode mit.id "mitigation") g
  let g := m.patterns.foldl (fun g p => g.addNode p.id "pattern") g
  let g := m.attacks.foldl (fun g a => g.addNode a.id "attack") g
  let g := m.properties.foldl propertyRefinesStep g
  let g := m.patterns.foldl patternEdgesStep g
  m.attacks.foldl attackEdgesStep g

/-! ## Resolution engine (`src/nxt/schema/model.py` query methods) -/

/-- `ThreatModel._get_pattern_mitigations`: the pattern's own pairs followed
by the pairs collected from its `refines` ancestor chain. -/
def patternMitigations : AttackPattern → List (Mitigation × String)
  | .mk _ _ _ rfn ms =>
    (ms.map fun ma => (ma.mitigation, ma.rationale)) ++
      (match rfn with
       | some p => patternMitigations p
       | none => [])

/-- `ThreatModel.get_mitigations_for`: direct pairs in declaration order,
then (when `include_inherited` and a `variant_of` pattern exists) the
pattern chain's pairs. -/
def getMitigationsFor (a : Attack) (includeInherited : Bool) : List (Mitigation × String) :=
  (a.mitigations.map fun ma => (ma.mitigation, ma.rationale)) ++
    (match includeInherited, a.variant_of with
     | true, some p => patternMitigations p
     | _, _ => [])

/-- The children of an attack: every attack whose `achieves` list contains
it.  Python's `attack in a.achieves` compares by `id`. -/
def childrenOf (attacks : List Attack) (a : Attack) : List Attack :=
  attacks.filter (fun x => x.achieves.any (fun p => p.id == a.id))

/-- `ThreatModel.get_outstanding_attacks`: attacks with no mitigations
(direct or inherited) and no children, in model order. -/
def getOutstandingAttacks (m : ThreatModel) : List Attack :=
  m.attacks.filter (fun a =>
    (getMitigationsFor a true).isEmpty && (childrenOf m.attacks a).isEmpty)

/-- `ThreatModel._refines_property`: walk `child`'s `refines` chain and
report whether some ancestor has `ancestor`'s id. -/
def refinesReaches : Property → Property → Bool
  | .mk _ _ none, _ => false
  | .mk _ _ (some r), anc => if r.id == anc.id then true else refinesReaches r anc

/-- The id set used by `get_attacks_targeting`: the property's own id plus
the ids of all model properties that transitively refine it (a Python set,
embedded as a list with the same membership). -/
def propIdsFor (m : ThreatModel) (prop : Property) : List String :=
  prop.id :: (m.properties.filter (fun p => refinesReaches p prop)).map Property.id

/-- `ThreatModel.get_attacks_targeting`: attacks with some target in
`propIdsFor` (the source's inner loop appends on the first hit and breaks,
which is membership of at least one target). -/
def attacksTargeting (m : ThreatModel) (prop : Property) : List Attack :=
  m.attacks.filter (fun a => a.targets.any (fun t => (propIdsFor m prop).contains t.id))

/-! ## Outstanding-attack views (`src/nxt/model/views.py`)

`_collect_outstanding_lines` recurses over children computed by lookup in
`model.attacks`, so the embedding takes fuel; fuel exhaustion returns no
lines and models non-termination on (malformed) cyclic `achieves` input. -/

/-- The display name used in lineages: `name` or `name (ctx, ctx, ...)`. -/
def attackDisplayName (a : Attack) : String :=
  if a.occurs_in.isEmpty then a.name
  else a.name ++ " (" ++ String.intercalate ", " (a.occurs_in.map Context.id) ++ ")"

/-- `_collect_outstanding_lines`: emit a lineage line for each outstanding
leaf (no children, no direct mitigations, no `variant_of`), or — when
`includeOosOnly` — for each leaf whose mitigations are all named
"Out of scope" and which has no `variant_of`. -/
def collectOutstandingLines (m : ThreatModel) : Nat → Attack → List String → Bool → List String
  | 0, _, _, _ => []
  | fuel + 1, attack, lineage, includeOosOnly =>
    let lineage' := lineage ++ [attackDisplayName attack]
    let children := childrenOf m.attacks attack
    let hasMits := decide (attack.mitigations.length > 0)
    let oosOnly := includeOosOnly && hasMits &&
      attack.mitigations.all (fun ma => ma.mitigation.name == "Out of scope")
    let isOutstanding := children.isEmpty && !hasMits && attack.variant_of.isNone
    let isOosOnlyLeaf := children.isEmpty && oosOnly && attack.variant_of.isNone
    if isOutstanding || isOosOnlyLeaf then
      [String.intercalate " > " (lineage' ++ ["*Outstanding*"])]
    else
      children.foldr
        (fun c acc => collectOutstandingLines m fuel c lineage' includeOosOnly ++ acc) []

/-- `outstanding_table`'s collection phase with `root=None`: collect
lineage lines from every root attack (no `achieves`), in model order. -/
def outstandingLinesTop (m : ThreatModel) (includeOosOnly : Bool) (fuel : Nat) : List String :=
  (m.attacks.filter (fun a => a.achieves.isEmpty)).foldr
    (fun r acc => collectOutstandingLines m fuel r [] includeOosOnly ++ acc) []

/-! ## Reference-level traversals on possibly-cyclic heaps

Pydantic models are mutable, so after construction a `refines` chain can be
made cyclic.  The nested inductives above cannot represent such heaps, so
the cycle-behaviour of the recursive traversals is embedded at the
reference level: an environment maps ids to records whose reference fields
hold ids.  The traversals take fuel and return `none` when it runs out;
`∀ fuel, ... = none` states that the Python recursion never returns. -/

/-- A pattern record at the reference level: id, `refines` as an id, and
`(mitigation id, rationale)` pairs. -/
structure PatternRef where
  id : String
  refinesId : Option String
  mitigations : List (String × String)

/-- `_get_pattern_mitigations` at the reference level: collect the
pattern's pairs, then recurse into `refines`.  No visited set is kept,
exactly as in the source. -/
def patternMitigationsFuel (env : List PatternRef) : Nat → String → Option (List (String × String))
  | 0, _ => none
  | fuel + 1, pid =>
    match env.find? (fun r => r.id == pid) with
    | none => none
    | some r =>
      match r.refinesId with
      | none => some r.mitigations
      | some q =>
        match patternMitigationsFuel env fuel q with
        | none => none
        | some rest => some (r.mitigations ++ rest)

/-- The Python recursion on this environment and pattern never returns. -/
def patternMitigationsDiverges (env : List PatternRef) (pid : String) : Prop :=
  ∀ fuel, patternMitigationsFuel env fuel pid = none

/-- A property record at the reference level for `_refines_property`. -/
structure PropertyRef where
  id : String
  refinesId : Option String

/-- `_refines_property`'s while loop at the reference level: `cur` is the
current reference (`none` ends the loop with `False`); no visited set is
kept, exactly as in the source. -/
def refinesWalkFuel (env : List PropertyRef) (ancestorId : String) :
    Nat → Option String → Option Bool
  | _, none => some false
  | 0, some _ => none
  | fuel + 1, some cid =>
    if cid == ancestorId then some true
    else
      match env.find? (fun r => r.id == cid) with
      | none => none
      | some r => refinesWalkFuel env ancestorId fuel r.refinesId

/-- The Python while loop on this environment and start never returns. -/
def refinesWalkDiverges (env : List PropertyRef) (ancestorId : String)
    (start : Option String) : Prop :=
  ∀ fuel, refinesWalkFuel env ancestorId fuel start = none

/-! ## Relational compatibility export (`src/nxt/model/compat.py`)

The legacy dictionaries embed live references to related records; since
records are keyed by synthetic integer ids, the embedding stores those
integer keys (foreign keys) in place of the nested records.  Synthetic id
maps are Python dicts keyed by entities, whose equality is by `id`; with
duplicate ids the last enumerated index wins. -/

/-- The 1-based position of the last element whose id is `k` (how a Python
dict keyed by id-equal objects resolves after enumeration). -/
def lastIdx1 (ids : List String) (k : String) : Option Nat :=
  ((ids.enum.filter (fun p => p.2 == k)).getLast?).map (fun p => p.1 + 1)

def propMapId (m : ThreatModel) (p : Property) : Option Nat :=
  lastIdx1 (m.properties.map Property.id) p.id

def ctxMapId (m : ThreatModel) (c : Context) : Option Nat :=
  lastIdx1 (m.contexts.map Context.id) c.id

def mitMapId (m : ThreatModel) (mit : Mitigation) : Option Nat :=
  lastIdx1 (m.mitigations.map Mitigation.id) mit.id

/-- Attack-table ids: `all_attacks = patterns + attacks`, enumerated from 1;
pattern keys and attack keys never unify (`__eq__` checks the class). -/
def patMapId (patterns : List AttackPattern) (p : AttackPattern) : Option Nat :=
  lastIdx1 (patterns.map AttackPattern.id) p.id

def atkMapId (patterns : List AttackPattern) (attacks : List Attack) (a : Attack) : Option Nat :=
  (lastIdx1 (attacks.map Attack.id) a.id).map (· + patterns.length)

/-- An exported mitigation record (`_build_mitigation_dict`); the `attacks`
back-references appended later by `_build_attack_dict` are keys of attack
records and do not alter any other field. -/
structure MitRecord where
  dbId : Nat
  name : String
  description : String
  identifier : String
  scope : String
  attacks : List Nat
deriving DecidableEq

/-- Insert into an integer-keyed dict: replace the value at an existing key
or append a new entry. -/
def dinsert (d : List (Nat × α)) (k : Nat) (v : α) : List (Nat × α) :=
  if d.any (fun e => e.1 == k) then
    d.map (fun e => if e.1 == k then (k, v) else e)
  else d ++ [(k, v)]

/-- `_build_mitigation_dict`: one record per model mitigation, skipping
every mitigation named "Out of scope". -/
def buildMitigationDict (m : ThreatModel) : List (Nat × MitRecord) :=
  m.mitigations.foldl
    (fun d mit =>
      if mit.name == "Out of scope" then d
      else
        let k := (mitMapId m mit).getD 0
        dinsert d k ⟨k, mit.name, mit.description, mit.id, mit.scope.value, []⟩)
    []

/-- One mitigation-application entry of an exported attack record:
a mitigation foreign key (`none` encodes the legacy NULL used for
"Out of scope") and the rationale. -/
structure MApEntry where
  mitigation : Option Nat
  rationale : String
deriving DecidableEq

/-- The mitigation entries of an exported attack or pattern record
(`_build_attack_dict`, identical code in the pattern and attack branches):
an application named "Out of scope" becomes a NULL entry carrying the
rationale; otherwise the mitigation is looked up in the id map (silently
skipped when absent, because `mitigation_id_map.get` returns `None`) and
its record must exist in the mitigation dict — the source indexes
`mitigation_dict[mit_id]` directly, raising `KeyError` otherwise, which the
embedding reports as `none`. -/
def exportMitEntries (m : ThreatModel) : List MApp → Option (List MApEntry)
  | [] => some []
  | ma :: rest =>
    if ma.mitigation.name == "Out of scope" then
      (exportMitEntries m rest).map (fun es => ⟨none, ma.rationale⟩ :: es)
    else
      match mitMapId m ma.mitigation with
      | none => exportMitEntries m rest
      | some mid =>
        if (buildMitigationDict m).any (fun e => e.1 == mid) then
          (exportMitEntries m rest).map (fun es => ⟨some mid, ma.rationale⟩ :: es)
        else none

/-- An exported attack record with nested records replaced by their keys.
`likelihood` and `impact` exist in the legacy schema; this exporter always
sets them to `None`. -/
structure AtkRecord where
  dbId : Nat
  identifier : String
  name : String
  description : String
  isAbstract : Bool
  instanceOf : Option Nat
  context : Option Nat
  likelihood : Option Nat
  impact : Option Nat
  properties : List Nat
  mitigations : List MApEntry
  children : List Nat
  parents : List Nat
deriving DecidableEq

/-- The qualified legacy identifier: `Parent.Name.Contexts` using the first
`achieves` parent only and all context ids joined with commas. -/
def qualifiedIdentifier (a : Attack) : String :=
  let parts := [a.name]
  let parts := match a.achieves with
    | parent :: _ => parent.name :: parts
    | [] => parts
  let parts := parts ++
    (if a.occurs_in.isEmpty then []
     else [String.intercalate "," (a.occurs_in.map Context.id)])
  String.intercalate "." parts

/-- The first-pass exported record of a concrete attack
(`_build_attack_dict`, concrete branch).  `instance_of`, `children` and
`parents` start empty and are filled by the later linking passes, which
touch no other field. -/
def mkConcreteAtkRecord (m : ThreatModel) (patterns : List AttackPattern)
    (a : Attack) : Option AtkRecord :=
  let ctx : Option Nat :=
    match a.occurs_in with
    | c :: _ => ctxMapId m c
    | [] => none
  match exportMitEntries m a.mitigations with
  | none => none
  | some mits =>
    some { dbId := (atkMapId patterns m.attacks a).getD 0
           identifier := qualifiedIdentifier a
           name := a.name
           description := a.description
           isAbstract := false
           instanceOf := none
           context := ctx
           likelihood := none
           impact := none
           properties := a.targets.filterMap (propMapId m)
           mitigations := mits
           children := []
           parents := [] }

/-- The first-pass exported record of a pattern (abstract attack). -/
def mkPatternAtkRecord (m : ThreatModel) (patterns : List AttackPattern)
    (p : AttackPattern) : Option AtkRecord :=
  match exportMitEntries m p.mitigations with
  | none => none
  | some mits =>
    some { dbId := (patMapId patterns p).getD 0
           identifier := p.name
           name := p.name
           description := p.description
           isAbstract := true
           instanceOf := none
           context := none
           likelihood := none
           impact := none
           properties := []
           mitigations := mits
           children := []
           parents := [] }

/-! ## Auto-identifier generation (`_gen_attack_ids`, `_gen_property_ids`)

The generators walk the exported records' `children` forests (which mirror
the legacy `ATTACK_CHILDREN` / `parent_fk` tables) and write each record's
`auto_identifier`.  A record is embedded as a tree node carrying the fields
the generator reads, and the generator returns the annotated forest.  The
recursion descends through `children` lists of dict records, so the
embedding takes fuel; any fuel at least the forest depth is exact. -/

/-- A node of the attack-record forest: raw identifier, `is_abstract`
flag, children. -/
inductive AtkNode where
  | mk (identifier : String) (isAbstract : Bool) (children : List AtkNode)

def AtkNode.identifier : AtkNode → String
  | .mk i _ _ => i

def AtkNode.isAbstract : AtkNode → Bool
  | .mk _ b _ => b

def AtkNode.children : AtkNode → List AtkNode
  | .mk _ _ cs => cs

/-- An attack node annotated with its generated `auto_identifier`. -/
inductive AtkTree where
  | mk (identifier : String) (isAbstract : Bool) (autoId : String) (children : List AtkTree)

def AtkTree.autoId : AtkTree → String
  | .mk _ _ a _ => a

/-- One level of `_gen_attack_ids`: walk the natsorted siblings threading
the two independent 1-based counters (`abs_index` for abstract records,
`index` for concrete ones); `rec` generates the next level. -/
def genAtkRow (rec : List AtkNode → Option String → List AtkTree) :
    List AtkNode → Option String → Nat → Nat → List AtkTree
  | [], _, _, _ => []
  | r :: rs, pfx, index, absIndex =>
    let effectiveIndex := if r.isAbstract then absIndex else index
    let index' := if r.isAbstract then index else index + 1
    let absIndex' := if r.isAbstract then absIndex + 1 else absIndex
    let autoId :=
      match pfx with
      | none => (if r.isAbstract then "AATK" else "ATK") ++ toString effectiveIndex
      | some p => p ++ "." ++ toString effectiveIndex
    AtkTree.mk r.identifier r.isAbstract autoId (rec r.children (some autoId)) ::
      genAtkRow rec rs pfx index' absIndex'

/-- `_gen_attack_ids(roots, prefix)`: natsort the roots by raw identifier,
then assign `AATK{n}` / `ATK{n}` at the top level or `{prefix}.{n}` below,
recursing into children with the freshly assigned identifier. -/
def genAttackIdsFuel : Nat → List AtkNode → Option String → List AtkTree
  | 0, _, _ => []
  | fuel + 1, roots, pfx =>
    genAtkRow (genAttackIdsFuel fuel) (natsortBy AtkNode.identifier roots) pfx 1 1

/-- A node of the property-record forest: raw identifier, `kind`,
children.  (`_build_property_dict` sets `kind` to "Model" throughout; the
legacy reader takes it from the database.) -/
inductive PropNode where
  | mk (identifier : String) (kind : String) (children : List PropNode)

def PropNode.identifier : PropNode → String
  | .mk i _ _ => i

def PropNode.kind : PropNode → String
  | .mk _ k _ => k

def PropNode.children : PropNode → List PropNode
  | .mk _ _ cs => cs

/-- A property node annotated with its generated `auto_identifier`. -/
inductive PropTree where
  | mk (identifier : String) (kind : String) (autoId : String) (children : List PropTree)

def PropTree.identifier : PropTree → String
  | .mk i _ _ _ => i

def PropTree.autoId : PropTree → String
  | .mk _ _ a _ => a

def PropTree.children : PropTree → List PropTree
  | .mk _ _ _ cs => cs

/-- The `PROPERTY_PREFIX` table mapping five distinguished top-level
property identifiers to single letters. -/
def propertyLetter (identifier : String) : Option String :=
  if identifier == "CONFIDENTIALITY" then some "P"
  else if identifier == "CORRECTNESS" then some "C"
  else if identifier == "VERIFIABILITY" then some "V"
  else if identifier == "DISPUTE_FREENESS" then some "D"
  else if identifier == "AVAILABILITY" then some "A"
  else none

/-- The `auto_identifier` assigned to one property record by
`_gen_property_ids`: the letter table is consulted only when no prefix was
passed down and the record's kind is "Model"; the raw identifier is kept
when no letter was found or at the `top` call. -/
def genPropAutoId (pfx : Option String) (top : Bool) (kind identifier : String)
    (index : Nat) : String :=
  let letterOpt :=
    if pfx == none && kind == "Model" then propertyLetter identifier else none
  match letterOpt with
  | none => identifier
  | some letter => if top then identifier else letter ++ "." ++ toString (index + 1)

/-- One level of `_gen_property_ids`: natsorted siblings are enumerated and
assigned their identifiers; children recurse with the assigned identifier
as the new prefix (`top` is passed only at the entry call). -/
def genPropRow (rec : List PropNode → Option String → Bool → List PropTree) :
    List PropNode → Option String → Bool → Nat → List PropTree
  | [], _, _, _ => []
  | r :: rs, pfx, top, index =>
    let autoId := genPropAutoId pfx top r.kind r.identifier index
    PropTree.mk r.identifier r.kind autoId (rec r.children (some autoId) false) ::
      genPropRow rec rs pfx top (index + 1)

/-- `_gen_property_ids(roots, prefix, top)`.  `build_data_structures` calls
it on the property roots with `top=True`. -/
def genPropertyIdsFuel : Nat → List PropNode → Option String → Bool → List PropTree
  | 0, _, _, _ => []
  | fuel + 1, roots, pfx, top =>
    genPropRow (genPropertyIdsFuel fuel) (natsortBy PropNode.identifier roots) pfx top 0

/-! ## Spec-side definitions

These follow the specification's words, for comparison with the embeddings
of the source.  They are used only on the right-hand side of refinement
statements. -/

/-- Following the spec's words: the `refines` chain from the instantiated
pattern up to its root. -/
def patternChain : AttackPattern → List AttackPattern
  | p@(.mk _ _ _ rfn _) =>
    p :: (match rfn with
          | some q => patternChain q
          | none => [])

/-- A pattern's own `(mitigation, rationale)` pairs. -/
def patternOwnPairs (p : AttackPattern) : List (Mitigation × String) :=
  p.mitigations.map fun ma => (ma.mitigation, ma.rationale)

/-- Following the spec's words (§4.3): the attack's own direct pairs in
declaration order, then — when inheriting and a `variant_of` pattern
exists — each ancestor pattern's own pairs, nearest pattern first, root
pattern last, with no de-duplication. -/
def specMitigationsFor (a : Attack) (includeInherited : Bool) : List (Mitigation × String) :=
  (a.mitigations.map fun ma => (ma.mitigation, ma.rationale)) ++
    (if includeInherited then
      match a.variant_of with
      | some p => ((patternChain p).map patternOwnPairs).flatten
      | none => []
     else [])

/-! ## Auxiliary predicates and flattening -/

/-- An id occurs among the graph's nodes. -/
def nodeIn (g : Graph) (id : String) : Prop :=
  id ∈ g.nodes.map Prod.fst

/-- Some edge with the given endpoints occurs in the graph. -/
def edgePairIn (g : Graph) (u v : String) : Prop :=
  ∃ e ∈ g.edges, e.src = u ∧ e.dst = v

/-- Well-formedness used by the targeting theorem: every `refines`
reference held by a listed property is itself one of the listed properties
(the spec requires all cross-references to resolve inside the model). -/
def refinesClosedOK (props : List Property) : Bool :=
  props.all fun p =>
    match p.refines with
    | some r => props.any (fun q => Property.beq q r)
    | none => true

def AtkTree.children : AtkTree → List AtkTree
  | .mk _ _ _ cs => cs

/-- Flatten an annotated attack forest in preorder (fueled). -/
def flattenAtkTrees : Nat → List AtkTree → List AtkTree
  | 0, _ => []
  | fuel + 1, ts => ts.foldr (fun t acc => t :: (flattenAtkTrees fuel t.children ++ acc)) []

/-- Every node of an annotated property tree has its raw identifier as its
generated auto-identifier. -/
inductive AllAutoEqId : PropTree → Prop where
  | node : ∀ (i k a : String) (cs : List PropTree), a = i →
      (∀ t ∈ cs, AllAutoEqId t) → AllAutoEqId (PropTree.mk i k a cs)

/-! ## Concrete instances used by the theorems below -/

def mitM1 : Mitigation := ⟨"M1", "Message signatures", "sigs", Scope.core⟩

def c2Pattern : AttackPattern :=
  .mk "pat" "Pattern" "" none [⟨mitM1, "inherited rationale"⟩]

def c2Attack : Attack :=
  .mk "a2" "Attack two" "" (some c2Pattern) [] [] [] [] [⟨mitM1, "direct rationale"⟩]

def c1Pattern : AttackPattern := .mk "p0" "Bare pattern" "" none []

def c1X : Attack := .mk "x" "X" "" (some c1Pattern) [] [] [] [] []

def c1Model : ThreatModel := ⟨"c1", "", [], [], [], [c1Pattern], [c1X]⟩

def c5Root : Attack := .mk "root" "root" "" none [] [] [] [] []

def c5Child1 : Attack := .mk "child1" "child1" "" none [c5Root] [] [] [] [⟨mitM1, "covers"⟩]

def c5Child2 : Attack :=
  .mk "child2" "child2" "" none [c5Root] [] [] [] [⟨OUT_OF_SCOPE, "rationale X"⟩]

def c5Model : ThreatModel :=
  ⟨"c5", "", [], [], [mitM1, OUT_OF_SCOPE], [], [c5Root, c5Child1, c5Child2]⟩

def c6Ghost : Property := .mk "GHOST" "not in the model" none

def c6Prop : Property := .mk "P1" "present" (some c6Ghost)

def c6Model : ThreatModel := ⟨"c6", "", [c6Prop], [], [], [], []⟩

def c7P : Property := .mk "P" "coarse objective" none

def c7Q : Property := .mk "Q" "fine objective" (some c7P)

def c7Attack : Attack := .mk "a7" "A seven" "" none [] [] [] [c7Q] []

def c7Model : ThreatModel := ⟨"c7", "", [c7P, c7Q], [], [], [], [c7Attack]⟩

def cycPatternEnv : List PatternRef := [⟨"p1", some "p2", []⟩, ⟨"p2", some "p1", []⟩]

def cycPropertyEnv : List PropertyRef := [⟨"a", some "b"⟩, ⟨"b", some "a"⟩]

def c9Parent : AtkNode :=
  .mk "parent" false [.mk "childA" true [], .mk "childB" false []]

def c3Forest : List PropNode := [.mk "CONFIDENTIALITY" "Model" [.mk "FOO" "Model" []]]

def c4Attack : Attack :=
  .mk "a4" "A four" "" none [] [] [] [] [⟨OUT_OF_SCOPE, "why"⟩, ⟨mitM1, "works"⟩]

def c4Model : ThreatModel := ⟨"c4", "", [], [], [mitM1, OUT_OF_SCOPE], [], [c4Attack]⟩

def ctxIN : Context := ⟨"IN", "Internet", ContextKind.network, none⟩

def ctxBB : Context := ⟨"BB", "Ballot box", ContextKind.subsystem, none⟩

def c10Parent : Attack := .mk "par" "Parent attack" "" none [] [] [] [] []

def c10Attack : Attack := .mk "a10" "Ten" "" none [c10Parent] [] [ctxIN, ctxBB] [] []

def c10Model : ThreatModel :=
  ⟨"c10", "", [], [ctxIN, ctxBB], [], [], [c10Parent, c10Attack]⟩

/-- The record `_build_attack_dict` produces for `c4Attack` (witness value). -/
def c4Record : AtkRecord :=
  ⟨1, "A four", "A four", "", false, none, none, none, none, [],
    [⟨none, "why"⟩, ⟨some 1, "works"⟩], [], []⟩

/-- The record `_build_attack_dict` produces for `c10Attack` (witness value). -/
def c10Record : AtkRecord :=
  ⟨2, "Parent attack.Ten.IN,BB", "Ten", "", false, none, some 1, none, none, [], [], [], []⟩

/-! ## Helper lemmas -/

theorem Property.beq_iff : (a b : Property) → (Property.beq a b = true ↔ a = b)
  | .mk i d none, .mk i' d' none => by simp [Property.beq]
  | .mk i d none, .mk _ _ (some _) => by simp [Property.beq]
  | .mk i d (some p), .mk _ _ none => by simp [Property.beq]
  | .mk i d (some p), .mk i' d' (some q) => by
      have ih := Property.beq_iff p q
      simp [Property.beq, ih, and_assoc]

theorem patternMitigations_eq_chain :
    (p : AttackPattern) →
      patternMitigations p = ((patternChain p).map patternOwnPairs).flatten
  | .mk i n d none ms => by
      simp [patternMitigations, patternChain, patternOwnPairs, AttackPattern.mitigations]
  | .mk i n d (some q) ms => by
      have ih := patternMitigations_eq_chain q
      simp [patternMitigations, patternChain, patternOwnPairs, AttackPattern.mitigations, ih]

theorem c8_pattern_cycle_aux :
    ∀ n, patternMitigationsFuel cycPatternEnv n "p1" = none ∧
      patternMitigationsFuel cycPatternEnv n "p2" = none := by
  intro n
  induction n with
  | zero => exact ⟨rfl, rfl⟩
  | succ k ih =>
    refine ⟨?_, ?_⟩
    · have h : patternMitigationsFuel cycPatternEnv (k + 1) "p1" =
          (match patternMitigationsFuel cycPatternEnv k "p2" with
           | none => none
           | some rest => some (([] : List (String × String)) ++ rest)) := rfl
      rw [h, ih.2]
    · have h : patternMitigationsFuel cycPatternEnv (k + 1) "p2" =
          (match patternMitigationsFuel cycPatternEnv k "p1" with
           | none => none
           | some rest => some (([] : List (String × String)) ++ rest)) := rfl
      rw [h, ih.1]

theorem c8_walk_cycle_aux :
    ∀ n, refinesWalkFuel cycPropertyEnv "z" n (some "a") = none ∧
      refinesWalkFuel cycPropertyEnv "z" n (some "b") = none := by
  intro n
  induction n with
  | zero => exact ⟨rfl, rfl⟩
  | succ k ih =>
    refine ⟨?_, ?_⟩
    · have h : refinesWalkFuel cycPropertyEnv "z" (k + 1) (some "a") =
          refinesWalkFuel cycPropertyEnv "z" k (some "b") := rfl
      rw [h, ih.2]
    · have h : refinesWalkFuel cycPropertyEnv "z" (k + 1) (some "b") =
          refinesWalkFuel cycPropertyEnv "z" k (some "a") := rfl
      rw [h, ih.1]

theorem genPropAutoId_of_top_or_pfx {pfx : Option String} {top : Bool}
    (h : top = true ∨ pfx ≠ none) (kind identifier : String) (index : Nat) :
    genPropAutoId pfx top kind identifier index = identifier := by
  rcases h with htop | hpfx
  · subst htop
    simp only [genPropAutoId]
    cases (if (pfx == none && kind == "Model") = true then propertyLetter identifier else none) <;>
      simp
  · obtain ⟨x, hx⟩ := Option.ne_none_iff_exists'.mp hpfx
    subst hx
    have hc : ((some x == (none : Option String)) && (kind == "Model")) = false := rfl
    simp [genPropAutoId, hc]

theorem genPropRow_keeps_id
    (rec : List PropNode → Option String → Bool → List PropTree)
    (hrec : ∀ cs a t, t ∈ rec cs (some a) false → AllAutoEqId t) :
    ∀ (l : List PropNode) (pfx : Option String) (top : Bool) (index : Nat),
      (top = true ∨ pfx ≠ none) →
      ∀ t ∈ genPropRow rec l pfx top index, AllAutoEqId t := by
  intro l
  induction l with
  | nil => intro pfx top index h t ht; simp [genPropRow] at ht
  | cons r rs ih =>
    intro pfx top index h t ht
    simp only [genPropRow, List.mem_cons] at ht
    rcases ht with ht | ht
    · subst ht
      refine AllAutoEqId.node _ _ _ _ ?_ ?_
      · exact genPropAutoId_of_top_or_pfx h r.kind r.identifier index
      · intro t' ht'
        exact hrec r.children _ t' ht'
    · exact ih pfx top (index + 1) h t ht

theorem genPropertyIdsFuel_keeps_id :
    ∀ (fuel : Nat) (roots : List PropNode) (pfx : Option String) (top : Bool),
      (top = true ∨ pfx ≠ none) →
      ∀ t ∈ genPropertyIdsFuel fuel roots pfx top, AllAutoEqId t := by
  intro fuel
  induction fuel with
  | zero => intro roots pfx top h t ht; simp [genPropertyIdsFuel] at ht
  | succ k ih =>
    intro roots pfx top h t ht
    refine genPropRow_keeps_id (genPropertyIdsFuel k) ?_
      (natsortBy PropNode.identifier roots) pfx top 0 h t ?_
    · intro cs a t' ht'
      exact ih cs (some a) false (Or.inr (by simp)) t' ht'
    · simpa [genPropertyIdsFuel] using ht

theorem exportMitEntries_oos (m : ThreatModel) :
    ∀ (mas : List MApp) (entries : List MApEntry) (ρ : String),
      exportMitEntries m mas = some entries →
      MApp.mk OUT_OF_SCOPE ρ ∈ mas → MApEntry.mk none ρ ∈ entries := by
  intro mas
  induction mas with
  | nil => intro es ρ h hm; cases hm
  | cons ma rest ih =>
    intro es ρ h hm
    by_cases hname : ma.mitigation.name = "Out of scope"
    · rw [exportMitEntries, if_pos (by simp [hname])] at h
      obtain ⟨es', hes', rfl⟩ := Option.map_eq_some'.mp h
      rcases List.mem_cons.mp hm with hma | hma
      · have : ma.rationale = ρ := by rw [← hma]
        rw [← this]
        exact List.mem_cons_self _ _
      · exact List.mem_cons_of_mem _ (ih es' ρ hes' hma)
    · rw [exportMitEntries, if_neg (by simp [hname])] at h
      rcases List.mem_cons.mp hm with hma | hma
      · exact absurd (by rw [← hma] : ma.mitigation.name = OUT_OF_SCOPE.name) hname
      · cases hmid : mitMapId m ma.mitigation with
        | none =>
          rw [hmid] at h
          exact ih es ρ h hma
        | some mid =>
          rw [hmid] at h
          dsimp only at h
          by_cases hpresent : ((buildMitigationDict m).any (fun e => e.1 == mid)) = true
          · rw [if_pos hpresent] at h
            obtain ⟨es', hes', rfl⟩ := Option.map_eq_some'.mp h
            exact List.mem_cons_of_mem _ (ih es' ρ hes' hma)
          · rw [if_neg hpresent] at h
            cases h

theorem dinsert_mem {α : Type} {d : List (Nat × α)} {k : Nat} {v : α} {x : Nat × α}
    (hx : x ∈ dinsert d k v) : x = (k, v) ∨ x ∈ d := by
  unfold dinsert at hx
  split at hx
  · obtain ⟨e, he, hfe⟩ := List.mem_map.mp hx
    by_cases hek : (e.1 == k) = true
    · rw [if_pos hek] at hfe; exact Or.inl hfe.symm
    · rw [if_neg hek] at hfe; exact Or.inr (hfe ▸ he)
  · rcases List.mem_append.mp hx with h | h
    · exact Or.inr h
    · exact Or.inl (List.mem_singleton.mp h)

theorem mitDict_names_aux (m : ThreatModel) :
    ∀ (l : List Mitigation) (acc : List (Nat × MitRecord)),
      (∀ x ∈ acc, (x : Nat × MitRecord).2.name ≠ "Out of scope") →
      ∀ x ∈ l.foldl
          (fun d mit =>
            if mit.name == "Out of scope" then d
            else
              let k := (mitMapId m mit).getD 0
              dinsert d k ⟨k, mit.name, mit.description, mit.id, mit.scope.value, []⟩)
          acc,
        x.2.name ≠ "Out of scope" := by
  intro l
  induction l with
  | nil => intro acc hacc x hx; exact hacc x hx
  | cons mit rest ih =>
    intro acc hacc x hx
    refine ih _ ?_ x hx
    intro y hy
    dsimp only at hy
    by_cases hname : (mit.name == "Out of scope") = true
    · rw [if_pos hname] at hy
      exact hacc y hy
    · rw [if_neg hname] at hy
      rcases dinsert_mem hy with rfl | hy'
      · simpa using hname
      · exact hacc y hy'

theorem map_fst_of_fst_eq {α β : Type} (f : α × β → α × β) (hf : ∀ n, (f n).1 = n.1)
    (l : List (α × β)) : (l.map f).map Prod.fst = l.map Prod.fst := by
  rw [List.map_map]
  exact List.map_congr_left (fun a _ => hf a)

theorem nodeIn_addNode {g : Graph} {x : String} (h : nodeIn g x) (id tag : String) :
    nodeIn (g.addNode id tag) x := by
  unfold Graph.addNode
  split
  · show x ∈ (g.nodes.map fun n => if n.1 == id then (n.1, some tag) else n).map Prod.fst
    rw [map_fst_of_fst_eq _ (fun n => by split <;> rfl)]
    exact h
  · show x ∈ (g.nodes ++ [(id, some tag)]).map Prod.fst
    rw [List.map_append]
    exact List.mem_append_left _ h

theorem nodeIn_ensureNode {g : Graph} {x : String} (h : nodeIn g x) (id : String) :
    nodeIn (g.ensureNode id) x := by
  unfold Graph.ensureNode
  split
  · exact h
  · show x ∈ (g.nodes ++ [(id, none)]).map Prod.fst
    rw [List.map_append]
    exact List.mem_append_left _ h

theorem nodeIn_ensureNode_self (g : Graph) (id : String) : nodeIn (g.ensureNode id) id := by
  unfold Graph.ensureNode
  split
  · next hany =>
      obtain ⟨n, hn, hbeq⟩ := List.any_eq_true.mp hany
      exact List.mem_map.mpr ⟨n, hn, (by simpa using hbeq : n.1 = id)⟩
  · show id ∈ (g.nodes ++ [(id, none)]).map Prod.fst
    rw [List.map_append]
    exact List.mem_append_right _ (by simp)

theorem edges_addNode (g : Graph) (id tag : String) : (g.addNode id tag).edges = g.edges := by
  unfold Graph.addNode
  split <;> rfl

theorem edges_ensureNode (g : Graph) (id : String) : (g.ensureNode id).edges = g.edges := by
  unfold Graph.ensureNode
  split <;> rfl

theorem nodeIn_addEdge {g : Graph} {x : String} (h : nodeIn g x) (u v ty : String)
    (rat : Option String) : nodeIn (g.addEdge u v ty rat) x := by
  unfold Graph.addEdge
  have h1 := nodeIn_ensureNode (nodeIn_ensureNode h u) v
  dsimp only
  split
  · exact h1
  · exact h1

theorem nodeIn_addEdge_right (g : Graph) (u v ty : String) (rat : Option String) :
    nodeIn (g.addEdge u v ty rat) v := by
  unfold Graph.addEdge
  have h1 := nodeIn_ensureNode_self (g.ensureNode u) v
  dsimp only
  split
  · exact h1
  · exact h1

theorem edgePairIn_addNode {g : Graph} {u v : String} (h : edgePairIn g u v)
    (id tag : String) : edgePairIn (g.addNode id tag) u v := by
  unfold edgePairIn
  rw [edges_addNode]
  exact h

theorem edgePairIn_ensureNode {g : Graph} {u v : String} (h : edgePairIn g u v)
    (id : String) : edgePairIn (g.ensureNode id) u v := by
  unfold edgePairIn
  rw [edges_ensureNode]
  exact h

theorem edgePairIn_addEdge {g : Graph} {u v : String} (h : edgePairIn g u v)
    (u' v' ty : String) (rat : Option String) : edgePairIn (g.addEdge u' v' ty rat) u v := by
  unfold Graph.addEdge
  have h1 : edgePairIn ((g.ensureNode u').ensureNode v') u v :=
    edgePairIn_ensureNode (edgePairIn_ensureNode h u') v'
  obtain ⟨e, he, hsrc, hdst⟩ := h1
  dsimp only
  split
  · refine ⟨if e.src == u' && e.dst == v' then { e with edgeType := ty, rationale := rat }
        else e, List.mem_map_of_mem _ he, ?_, ?_⟩ <;> split <;> simp [hsrc, hdst]
  · exact ⟨e, List.mem_append_left _ he, hsrc, hdst⟩

theorem edgePairIn_addEdge_self (g : Graph) (u v ty : String) (rat : Option String) :
    edgePairIn (g.addEdge u v ty rat) u v := by
  unfold Graph.addEdge
  dsimp only
  split
  · next hany =>
      obtain ⟨e, he, hbeq⟩ := List.any_eq_true.mp hany
      have hb := hbeq
      simp only [Bool.and_eq_true, beq_iff_eq] at hb
      refine ⟨{ e with edgeType := ty, rationale := rat }, ?_, hb.1, hb.2⟩
      refine List.mem_map.mpr ⟨e, he, ?_⟩
      rw [if_pos hbeq]
  · exact ⟨⟨u, v, ty, rat⟩, List.mem_append_right _ (by simp), rfl, rfl⟩

theorem foldl_preserve {α β : Type} {P : α → Prop} {f : α → β → α}
    (hf : ∀ g b, P g → P (f g b)) : ∀ (l : List β) (g : α), P g → P (l.foldl f g) := by
  intro l
  induction l with
  | nil => intro g h; exact h
  | cons b bs ih => intro g h; exact ih (f g b) (hf g b h)

theorem foldl_establish {α β : Type} {P : α → Prop} {f : α → β → α}
    (hf : ∀ g b, P g → P (f g b)) {b : β} (hb : ∀ g, P (f g b)) :
    ∀ (l : List β) (g : α), b ∈ l → P (l.foldl f g) := by
  intro l
  induction l with
  | nil => intro g h; cases h
  | cons c cs ih =>
    intro g h
    rcases List.mem_cons.mp h with heq | h'
    · subst heq
      exact foldl_preserve hf cs (f g b) (hb g)
    · exact ih (f g c) h'

theorem np_addEdge {g : Graph} {x u v : String}
    (h : nodeIn g x ∧ edgePairIn g u v) (u' v' ty : String) (rat : Option String) :
    nodeIn (g.addEdge u' v' ty rat) x ∧ edgePairIn (g.addEdge u' v' ty rat) u v :=
  ⟨nodeIn_addEdge h.1 _ _ _ _, edgePairIn_addEdge h.2 _ _ _ _⟩

theorem np_addNode {g : Graph} {x u v : String}
    (h : nodeIn g x ∧ edgePairIn g u v) (id tag : String) :
    nodeIn (g.addNode id tag) x ∧ edgePairIn (g.addNode id tag) u v :=
  ⟨nodeIn_addNode h.1 _ _, edgePairIn_addNode h.2 _ _⟩

theorem np_foldl {β : Type} {x u v : String} (f : Graph → β → Graph)
    (hf : ∀ g b, (nodeIn g x ∧ edgePairIn g u v) →
      (nodeIn (f g b) x ∧ edgePairIn (f g b) u v))
    (l : List β) (g : Graph) (h : nodeIn g x ∧ edgePairIn g u v) :
    nodeIn (l.foldl f g) x ∧ edgePairIn (l.foldl f g) u v :=
  foldl_preserve hf l g h

theorem np_foldl_establish {β : Type} {x u v : String} (f : Graph → β → Graph)
    (hf : ∀ g b, (nodeIn g x ∧ edgePairIn g u v) →
      (nodeIn (f g b) x ∧ edgePairIn (f g b) u v))
    (b : β) (hb : ∀ g, nodeIn (f g b) x ∧ edgePairIn (f g b) u v)
    (l : List β) (g : Graph) (hmem : b ∈ l) :
    nodeIn (l.foldl f g) x ∧ edgePairIn (l.foldl f g) u v :=
  foldl_establish hf hb l g hmem

theorem np_patternStep {x u v : String} (g : Graph) (p : AttackPattern)
    (h : nodeIn g x ∧ edgePairIn g u v) :
    nodeIn (patternEdgesStep g p) x ∧ edgePairIn (patternEdgesStep g p) u v := by
  unfold patternEdgesStep
  dsimp only
  refine np_foldl _ (fun g b hg => np_addEdge hg _ _ _ _) _ _ ?_
  cases p.refines with
  | none => exact h
  | some q => exact np_addEdge h _ _ _ _

theorem np_attackStep {x u v : String} (g : Graph) (a : Attack)
    (h : nodeIn g x ∧ edgePairIn g u v) :
    nodeIn (attackEdgesStep g a) x ∧ edgePairIn (attackEdgesStep g a) u v := by
  unfold attackEdgesStep
  dsimp only
  refine np_foldl _ (fun g b hg => np_addEdge hg _ _ _ _) _ _ ?_
  refine np_foldl _ (fun g b hg => np_addEdge hg _ _ _ _) _ _ ?_
  refine np_foldl _ (fun g b hg => np_addEdge hg _ _ _ _) _ _ ?_
  refine np_foldl _ (fun g b hg => np_addEdge hg _ _ _ _) _ _ ?_
  refine np_foldl _ (fun g b hg => np_addEdge hg _ _ _ _) _ _ ?_
  cases a.variant_of with
  | none => exact h
  | some p => exact np_addEdge h _ _ _ _

theorem property_id_inj {props : List Property}
    (hnd : (props.map Property.id).Nodup) {a b : Property}
    (ha : a ∈ props) (hb : b ∈ props) (h : a.id = b.id) : a = b :=
  List.inj_on_of_nodup_map hnd ha hb h

theorem refinesClosed_mem {props : List Property} (hcl : refinesClosedOK props = true)
    {p : Property} (hp : p ∈ props) {r : Property} (hr : p.refines = some r) :
    r ∈ props := by
  unfold refinesClosedOK at hcl
  have hall := (List.all_eq_true.mp hcl) p hp
  rw [hr] at hall
  obtain ⟨q, hq, hbeq⟩ := List.any_eq_true.mp hall
  exact ((Property.beq_iff q r).mp hbeq) ▸ hq

theorem reaches_trans (props : List Property) (hcl : refinesClosedOK props = true)
    (hnd : (props.map Property.id).Nodup) (P Q : Property)
    (hQ : Q ∈ props) (hQP : refinesReaches Q P = true) :
    (p : Property) → p ∈ props → refinesReaches p Q = true → refinesReaches p P = true
  | .mk i d none, _, hr => by simp [refinesReaches] at hr
  | .mk i d (some r), hp, hr => by
      have hrmem : r ∈ props :=
        refinesClosed_mem hcl hp (rfl : (Property.mk i d (some r)).refines = some r)
      simp only [refinesReaches] at hr ⊢
      by_cases hid : (r.id == Q.id) = true
      · have hrQ : r = Q := property_id_inj hnd hrmem hQ (by simpa using hid)
        split
        · rfl
        · rw [hrQ]
          exact hQP
      · rw [if_neg hid] at hr
        have hrP := reaches_trans props hcl hnd P Q hQ hQP r hrmem hr
        split
        · rfl
        · exact hrP

/-! ## Claim theorems -/

/-- C1 (counterexample): `get_outstanding_attacks` reports the attack `x`
as outstanding although `x` has a `variant_of` pattern (whose chain simply
carries no mitigations) — so "reports A as outstanding iff ... A has no
`variant_of` pattern at all" is false of `get_outstanding_attacks`. -/
theorem c1_counterexample :
    (getOutstandingAttacks c1Model).map Attack.id = ["x"] ∧
    c1X.variant_of = some c1Pattern ∧
    getMitigationsFor c1X true = [] ∧
    childrenOf c1Model.attacks c1X = [] := ⟨rfl, rfl, rfl, rfl⟩

/-- C1 (amended): `get_outstanding_attacks` reports an attack iff it is in
the model, `mitigations_for(A, include_inherited=True)` is empty and it has
no children — with no `variant_of` condition; the lineage-based view
(`_collect_outstanding_lines`), which does additionally require the absence
of `variant_of`, reports nothing on the counterexample model. -/
theorem c1_outstanding_characterisation :
    (∀ (m : ThreatModel) (a : Attack),
        a ∈ getOutstandingAttacks m ↔
          a ∈ m.attacks ∧ getMitigationsFor a true = [] ∧ childrenOf m.attacks a = []) ∧
    outstandingLinesTop c1Model false 4 = [] := by
  constructor
  · intro m a
    simp [getOutstandingAttacks, List.mem_filter, Bool.and_eq_true, List.isEmpty_iff,
      and_assoc]
  · rfl

/-- C2: `get_mitigations_for` returns the attack's own pairs first in
declaration order, then (when inheriting) each ancestor pattern's own pairs
along the `refines` chain, nearest pattern first; no de-duplication occurs,
so `c2Attack`, which applies M1 directly and inherits it, lists M1 twice. -/
theorem c2_mitigation_resolution :
    (∀ (a : Attack) (includeInherited : Bool),
        getMitigationsFor a includeInherited = specMitigationsFor a includeInherited) ∧
    (getMitigationsFor c2Attack true).map (fun pr => pr.1.id) = ["M1", "M1"] := by
  constructor
  · intro a includeInherited
    cases includeInherited <;> cases hv : a.variant_of <;>
      simp [getMitigationsFor, specMitigationsFor, hv, patternMitigations_eq_chain]
  · rfl

/-- C3 (counterexample): under the actual entry point (`top=True`, no
prefix), the descendant of the `CONFIDENTIALITY` root is assigned its raw
identifier "FOO", not "P.1" as the claim states. -/
theorem c3_counterexample :
    genPropertyIdsFuel 3 c3Forest none true =
      [PropTree.mk "CONFIDENTIALITY" "Model" "CONFIDENTIALITY"
        [PropTree.mk "FOO" "Model" "FOO" []]] ∧
    "FOO" ≠ "P.1" := ⟨rfl, by decide⟩

/-- C3 (amended): under the entry point used by `build_data_structures`
(`top=True`, prefix `None`), every property record — top-level or
descendant — keeps its raw identifier verbatim as its auto-identifier: the
letter table can only fire when no prefix was passed down, which happens
only at the top call, where `top` forces the raw identifier anyway, and
every recursive call passes the parent's assigned identifier as a non-None
prefix. -/
theorem c3_auto_ids_keep_raw_identifier :
    ∀ (fuel : Nat) (roots : List PropNode) (t : PropTree),
      t ∈ genPropertyIdsFuel fuel roots none true → AllAutoEqId t :=
  fun fuel roots t ht =>
    genPropertyIdsFuel_keeps_id fuel roots none true (Or.inl rfl) t ht

/-- C3 (witness): the amended theorem applied to the concrete forest. -/
theorem c3_witness :
    AllAutoEqId (PropTree.mk "CONFIDENTIALITY" "Model" "CONFIDENTIALITY"
      [PropTree.mk "FOO" "Model" "FOO" []]) :=
  c3_auto_ids_keep_raw_identifier 3 c3Forest _ (List.mem_singleton_self _)

/-- C4: the exported mitigation table contains no record whose name is the
reserved sentinel's name, and wherever an attack's or pattern's mitigation
list applies `OUT_OF_SCOPE`, the exported record carries an entry with a
null mitigation reference and the original rationale unchanged. -/
theorem c4_oos_export (m : ThreatModel) :
    (∀ x ∈ buildMitigationDict m, (x : Nat × MitRecord).2.name ≠ OUT_OF_SCOPE.name) ∧
    (∀ (mas : List MApp) (entries : List MApEntry) (ρ : String),
        exportMitEntries m mas = some entries →
        MApp.mk OUT_OF_SCOPE ρ ∈ mas → MApEntry.mk none ρ ∈ entries) ∧
    (∀ (patterns : List AttackPattern) (a : Attack) (r : AtkRecord) (ρ : String),
        mkConcreteAtkRecord m patterns a = some r →
        MApp.mk OUT_OF_SCOPE ρ ∈ a.mitigations → MApEntry.mk none ρ ∈ r.mitigations) ∧
    (∀ (patterns : List AttackPattern) (p : AttackPattern) (r : AtkRecord) (ρ : String),
        mkPatternAtkRecord m patterns p = some r →
        MApp.mk OUT_OF_SCOPE ρ ∈ p.mitigations → MApEntry.mk none ρ ∈ r.mitigations) := by
  refine ⟨?_, exportMitEntries_oos m, ?_, ?_⟩
  · intro x hx
    show x.2.name ≠ "Out of scope"
    exact mitDict_names_aux m m.mitigations [] (by intro y hy; cases hy) x hx
  · intro patterns a r ρ h hm
    unfold mkConcreteAtkRecord at h
    cases hme : exportMitEntries m a.mitigations with
    | none => rw [hme] at h; cases h
    | some mits =>
      rw [hme] at h
      dsimp only at h
      injection h with h2
      subst h2
      exact exportMitEntries_oos m a.mitigations mits ρ hme hm
  · intro patterns p r ρ h hm
    unfold mkPatternAtkRecord at h
    cases hme : exportMitEntries m p.mitigations with
    | none => rw [hme] at h; cases h
    | some mits =>
      rw [hme] at h
      dsimp only at h
      injection h with h2
      subst h2
      exact exportMitEntries_oos m p.mitigations mits ρ hme hm

/-- C4 (witness): the theorem applied to a model whose attack lists an
`OUT_OF_SCOPE` application with rationale "why". -/
theorem c4_witness : MApEntry.mk none "why" ∈ c4Record.mitigations :=
  (c4_oos_export c4Model).2.2.1 [] c4Attack c4Record "why" rfl
    (List.mem_cons_self _ _)

/-- C5: on the three-attack scenario model, outstanding detection with the
strict OOS flag off reports nothing (`child2`'s OOS application counts as a
mitigation, also for `get_outstanding_attacks`), and with the flag on it
reports exactly the lineage of `child2`. -/
theorem c5_oos_scenario :
    outstandingLinesTop c5Model false 4 = [] ∧
    (getOutstandingAttacks c5Model).map Attack.id = [] ∧
    outstandingLinesTop c5Model true 4 = ["root > child2 > *Outstanding*"] :=
  ⟨rfl, rfl, rfl⟩

/-- C6 (counterexample): building the model whose only property refines the
absent property "GHOST" does not fail — it silently returns a graph in
which "GHOST" was auto-created by `add_edge` as a node with no `node_type`
attribute. -/
theorem c6_counterexample :
    ThreatModel.build c6Model =
      ⟨[("P1", some "property"), ("GHOST", none)],
        [⟨"P1", "GHOST", "refines", none⟩]⟩ := rfl

/-- C6 (amended): the graph build never reports a structural error — it is
total, and for every property whose `refines` points anywhere (present in
the collections or not), the target id appears among the nodes and the
refines edge pair appears among the edges of the built graph. -/
theorem c6_build_silently_adds (m : ThreatModel) (p q : Property)
    (hp : p ∈ m.properties) (hr : p.refines = some q) :
    nodeIn m.build q.id ∧ edgePairIn m.build p.id q.id := by
  unfold ThreatModel.build
  dsimp only
  refine np_foldl _ (fun g b hg => np_attackStep g b hg) _ _ ?_
  refine np_foldl _ (fun g b hg => np_patternStep g b hg) _ _ ?_
  refine np_foldl_establish propertyRefinesStep ?_ p ?_ m.properties _ hp
  · intro g b hg
    unfold propertyRefinesStep
    cases b.refines with
    | none => exact hg
    | some q' => exact np_addEdge hg _ _ _ _
  · intro g
    unfold propertyRefinesStep
    rw [hr]
    exact ⟨nodeIn_addEdge_right _ _ _ _ _, edgePairIn_addEdge_self _ _ _ _ _⟩

/-- C6 (witness): the amended theorem applied to the dangling model. -/
theorem c6_witness :
    nodeIn (ThreatModel.build c6Model) "GHOST" ∧
    edgePairIn (ThreatModel.build c6Model) "P1" "GHOST" :=
  c6_build_silently_adds c6Model c6Prop c6Ghost (List.mem_singleton_self c6Prop) rfl

/-- C7: in a model whose property references resolve within the collection
and whose property ids are duplicate-free, if Q's `refines` chain reaches
P then every attack returned by `get_attacks_targeting(Q)` is also
returned by `get_attacks_targeting(P)`. -/
theorem c7_targeting_superset (m : ThreatModel) (P Q : Property)
    (hcl : refinesClosedOK m.properties = true)
    (hnd : (m.properties.map Property.id).Nodup)
    (_hP : P ∈ m.properties) (hQ : Q ∈ m.properties)
    (hQP : refinesReaches Q P = true)
    (A : Attack) (hA : A ∈ attacksTargeting m Q) :
    A ∈ attacksTargeting m P := by
  obtain ⟨hAm, hany⟩ := List.mem_filter.mp hA
  obtain ⟨t, htmem, ht⟩ := List.any_eq_true.mp hany
  have htid : t.id ∈ propIdsFor m Q := List.elem_iff.mp ht
  refine List.mem_filter.mpr ⟨hAm, List.any_eq_true.mpr ⟨t, htmem, ?_⟩⟩
  refine List.elem_iff.mpr ?_
  rcases List.mem_cons.mp htid with hQid | hdesc
  · exact List.mem_cons_of_mem _
      (List.mem_map.mpr ⟨Q, List.mem_filter.mpr ⟨hQ, hQP⟩, hQid.symm⟩)
  · obtain ⟨p', hp', hpid⟩ := List.mem_map.mp hdesc
    have hp'props := (List.mem_filter.mp hp').1
    have hp'Q := (List.mem_filter.mp hp').2
    have hp'P := reaches_trans m.properties hcl hnd P Q hQ hQP p' hp'props hp'Q
    exact List.mem_cons_of_mem _
      (List.mem_map.mpr ⟨p', List.mem_filter.mpr ⟨hp'props, hp'P⟩, hpid⟩)

/-- C7 (witness): the theorem applied to a concrete model with Q refining P
and one attack targeting Q. -/
theorem c7_witness : c7Attack ∈ attacksTargeting c7Model c7P :=
  c7_targeting_superset c7Model c7P c7Q (by decide) (by decide)
    (List.mem_cons_self _ _) (List.mem_cons_of_mem _ (List.mem_singleton_self _)) rfl
    c7Attack (List.mem_singleton_self c7Attack)

/-- C8 (counterexample): on a cyclic `refines` chain (p1 → p2 → p1) the
mitigation-resolution recursion never returns for any amount of fuel — it
does not terminate by tracking visited identifiers and failing fast. -/
theorem c8_counterexample : patternMitigationsDiverges cycPatternEnv "p1" :=
  fun n => (c8_pattern_cycle_aux n).1

/-- C8 (amended): the recursive traversals keep no visited set; on cyclic
input both `_get_pattern_mitigations` and `_refines_property` recurse or
loop unboundedly (no fuel suffices), rather than failing fast — termination
relies on the acyclicity invariant of well-formed input. -/
theorem c8_no_cycle_guard :
    patternMitigationsDiverges cycPatternEnv "p2" ∧
    refinesWalkDiverges cycPropertyEnv "z" (some "a") :=
  ⟨fun n => (c8_pattern_cycle_aux n).2, fun n => (c8_walk_cycle_aux n).1⟩

/-- C9: `_gen_attack_ids` counts abstract and concrete siblings with two
independent 1-based counters sharing one output format below the root, so a
parent with one abstract and one concrete child assigns both children the
identical auto-identifier "ATK1.1", and the flattened attack table's
auto-identifiers are not duplicate-free. -/
theorem c9_duplicate_child_ids :
    genAttackIdsFuel 3 [c9Parent] none =
      [AtkTree.mk "parent" false "ATK1"
        [AtkTree.mk "childA" true "ATK1.1" [], AtkTree.mk "childB" false "ATK1.1" []]] ∧
    ¬ ((flattenAtkTrees 3 (genAttackIdsFuel 3 [c9Parent] none)).map AtkTree.autoId).Nodup :=
  ⟨rfl, by decide⟩

/-- C10: the exported record of a concrete attack references only the first
`occurs_in` context (null when there is none); the remaining contexts
survive only comma-joined inside the qualified legacy identifier. -/
theorem c10_context_first_only (m : ThreatModel) (patterns : List AttackPattern)
    (a : Attack) (r : AtkRecord) (h : mkConcreteAtkRecord m patterns a = some r) :
    r.context = (match a.occurs_in with
                 | c :: _ => ctxMapId m c
                 | [] => none) ∧
    (a.occurs_in = [] → r.context = none) ∧
    r.identifier = qualifiedIdentifier a := by
  unfold mkConcreteAtkRecord at h
  cases hme : exportMitEntries m a.mitigations with
  | none => rw [hme] at h; cases h
  | some mits =>
    rw [hme] at h
    dsimp only at h
    injection h with h2
    subst h2
    refine ⟨rfl, ?_, rfl⟩
    intro h0
    rw [h0]

/-- C10 (witness): the theorem applied to an attack occurring in two
contexts: the record holds only the first context's key while the
identifier carries both, comma-joined. -/
theorem c10_witness :
    c10Record.context = (match c10Attack.occurs_in with
                         | c :: _ => ctxMapId c10Model c
                         | [] => none) ∧
    (c10Attack.occurs_in = [] → c10Record.context = none) ∧
    c10Record.identifier = qualifiedIdentifier c10Attack :=
  c10_context_first_only c10Model [] c10Attack c10Record rfl

end Nxt

